import Mathlib

/-!
Verification of the settlement core of the Split Bill application
(`src/src/App.jsx`, function `calculateDebts`, lines 45-80).

The embedding models JS numbers as exact rationals (ℚ). The `debtMap`
object is modelled as an association list in insertion order with
overwrite-in-place on an existing key, matching `Object.entries`
enumeration order for string keys. `Array.prototype.sort` is modelled by
the stable `List.mergeSort` with the comparator's order
(`(a, b) => b.amount - a.amount`, i.e. descending by amount).
-/

namespace SplitBill

/-- An expense item `{name, value}` recorded for a participant. -/
structure Item where
  name : String
  value : ℚ
deriving DecidableEq, Repr

/-- A participant `{name, items, payments}` of the ledger. -/
structure Person where
  name : String
  items : List Item
  payments : List ℚ
deriving DecidableEq, Repr

/-- A settlement instruction `{from, to, amount}`: `from_` pays `amount` to
`to_`. (`from` and `to` are Lean keywords, hence the underscores.) -/
structure Transfer where
  from_ : String
  to_ : String
  amount : ℚ
deriving DecidableEq, Repr

/-- Embeds `person.items.reduce((acc, item) => acc + item.value, 0)` (App.jsx line 50). -/
def spentOf (p : Person) : ℚ :=
  p.items.foldl (fun acc item => acc + item.value) 0

/-- Embeds `person.payments.reduce((acc, pay) => acc + pay, 0)` (App.jsx line 51). -/
def paidOf (p : Person) : ℚ :=
  p.payments.foldl (fun acc pay => acc + pay) 0

/-- Assignment `debtMap[name] = v` on a plain JS object: overwrite in place when the key
exists, otherwise append (string keys enumerate in insertion order). -/
def setKey (m : List (String × ℚ)) (k : String) (v : ℚ) : List (String × ℚ) :=
  if m.any (fun e => e.1 = k) then
    m.map (fun e => if e.1 = k then (k, v) else e)
  else m ++ [(k, v)]

/-- The mutable state of the `people.forEach` aggregation loop
(App.jsx lines 46-55): `debtMap`, `totalSpent`, `totalPaid`. -/
structure AggState where
  debtMap : List (String × ℚ)
  totalSpent : ℚ
  totalPaid : ℚ
deriving DecidableEq, Repr

/-- One iteration of the `people.forEach(person => ...)` body (lines 49-55). -/
def aggStep (st : AggState) (p : Person) : AggState :=
  let spent := spentOf p
  let paid := paidOf p
  { debtMap := setKey st.debtMap p.name (paid - spent)
    totalSpent := st.totalSpent + spent
    totalPaid := st.totalPaid + paid }

/-- The whole aggregation pass (lines 46-55), starting from the empty map and
zero totals. -/
def aggregate (people : List Person) : AggState :=
  people.foldl aggStep { debtMap := [], totalSpent := 0, totalPaid := 0 }

/-- A creditor/debtor record `{name, amount}` (App.jsx lines 59-63). -/
structure CD where
  name : String
  amount : ℚ
deriving DecidableEq, Repr

/-- The `for (let [name, amount] of Object.entries(debtMap))` partition loop
(lines 59-63): push `{name, amount}` onto `creditors` when `amount > 0`, push
`{name, |amount|}` onto `debtors` when `amount < 0`, drop zero balances. -/
def partitionEntries (entries : List (String × ℚ)) : List CD × List CD :=
  entries.foldl
    (fun acc e =>
      if e.2 > 0 then (acc.1 ++ [⟨e.1, e.2⟩], acc.2)
      else if e.2 < 0 then (acc.1, acc.2 ++ [⟨e.1, |e.2|⟩])
      else acc)
    ([], [])

/-- Embeds `list.sort((a, b) => b.amount - a.amount)` (lines 65-66): stable sort,
descending by amount. -/
def sortDesc (l : List CD) : List CD :=
  l.mergeSort (fun a b => decide (b.amount ≤ a.amount))

/-- The two-pointer matching loop (App.jsx lines 68-77) written as a recursion
that consumes the lists: the head of each list is the element at the current
pointer, carrying its updated amount; a pointer advances (the head is dropped)
exactly when its updated amount is exactly zero, as in the source's
`if (creditors[i].amount === 0) i++` / `if (debtors[j].amount === 0) j++`.
`matchLoopFuel_eq_matchRec` below proves this recursion equal to the literal
index-based loop. -/
def matchRec : List CD → List CD → List Transfer
  | [], _ => []
  | _ :: _, [] => []
  | c :: cs, d :: ds =>
    let debt := min c.amount d.amount
    { from_ := d.name, to_ := c.name, amount := debt } ::
      matchRec (if c.amount - debt = 0 then cs else ⟨c.name, c.amount - debt⟩ :: cs)
               (if d.amount - debt = 0 then ds else ⟨d.name, d.amount - debt⟩ :: ds)
termination_by cs ds => cs.length + ds.length
decreasing_by
  rcases le_total c.amount d.amount with h | h
  · have hc : c.amount - min c.amount d.amount = 0 := by
      rw [min_eq_left h]; ring
    rw [dif_pos hc]
    split <;> (simp only [List.length_cons]; omega)
  · have hd : d.amount - min c.amount d.amount = 0 := by
      rw [min_eq_right h]; ring
    rw [dif_pos hd]
    split <;> (simp only [List.length_cons]; omega)

/-- The result object of `calculateDebts`: either `{error: msg}` or
`{debts: [...]}` — exactly one field populated. -/
inductive SettlementResult where
  | error (msg : String)
  | debts (ts : List Transfer)
deriving DecidableEq, Repr

/-- The core function `calculateDebts` (App.jsx lines 45-80): aggregate balances and totals,
reject when `Math.abs(totalSpent - totalPaid) > 0.01`, otherwise partition,
sort and greedily match. -/
def calculateDebts (people : List Person) : SettlementResult :=
  let st := aggregate people
  if |st.totalSpent - st.totalPaid| > (1 / 100 : ℚ) then
    .error "Totals do not match"
  else
    let part := partitionEntries st.debtMap
    .debts (matchRec (sortDesc part.1) (sortDesc part.2))

/-- The derived balance of a participant: `paid - spent` (App.jsx line 52). -/
def balanceOf (p : Person) : ℚ :=
  paidOf p - spentOf p

/-- Read access `debtMap[k]`: the value of the first (unique) entry whose key
is `k`. -/
def lookupKey (m : List (String × ℚ)) (k : String) : Option ℚ :=
  (m.find? (fun e => e.1 = k)).map (fun e => e.2)

lemma foldl_add_eq {α : Type} (f : α → ℚ) :
    ∀ (l : List α) (init : ℚ),
      l.foldl (fun acc x => acc + f x) init = init + (l.map f).sum := by
  intro l
  induction l with
  | nil => simp
  | cons x xs ih => intro init; simp [ih, List.sum_cons]; ring

lemma spentOf_eq_sum (p : Person) : spentOf p = (p.items.map Item.value).sum := by
  simpa using foldl_add_eq Item.value p.items 0

lemma paidOf_eq_sum (p : Person) : paidOf p = p.payments.sum := by
  simpa using foldl_add_eq id p.payments 0

lemma foldl_aggStep_totalSpent :
    ∀ (ps : List Person) (st : AggState),
      (ps.foldl aggStep st).totalSpent = st.totalSpent + (ps.map spentOf).sum := by
  intro ps
  induction ps with
  | nil => simp
  | cons p ps ih => intro st; simp [ih, aggStep, List.sum_cons]; ring

lemma foldl_aggStep_totalPaid :
    ∀ (ps : List Person) (st : AggState),
      (ps.foldl aggStep st).totalPaid = st.totalPaid + (ps.map paidOf).sum := by
  intro ps
  induction ps with
  | nil => simp
  | cons p ps ih => intro st; simp [ih, aggStep, List.sum_cons]; ring

lemma aggregate_totalSpent (people : List Person) :
    (aggregate people).totalSpent = (people.map spentOf).sum := by
  simpa [aggregate] using foldl_aggStep_totalSpent people ⟨[], 0, 0⟩

lemma aggregate_totalPaid (people : List Person) :
    (aggregate people).totalPaid = (people.map paidOf).sum := by
  simpa [aggregate] using foldl_aggStep_totalPaid people ⟨[], 0, 0⟩

lemma setKey_cons_ne (e : String × ℚ) (es : List (String × ℚ)) (k : String)
    (v : ℚ) (h : ¬ e.1 = k) : setKey (e :: es) k v = e :: setKey es k v := by
  have hdec : (decide (e.1 = k)) = false := by simp [h]
  unfold setKey
  simp only [List.any_cons, hdec, Bool.false_or]
  by_cases hany : (es.any fun e => decide (e.1 = k)) = true
  · rw [if_pos hany, if_pos hany]
    simp [h]
  · rw [if_neg hany, if_neg hany]
    simp

lemma setKey_cons_eq (e : String × ℚ) (es : List (String × ℚ)) (k : String)
    (v : ℚ) (h : e.1 = k) :
    setKey (e :: es) k v =
      (k, v) :: es.map (fun x => if x.1 = k then (k, v) else x) := by
  unfold setKey
  simp [h]

lemma lookupKey_cons (e : String × ℚ) (es : List (String × ℚ)) (k' : String) :
    lookupKey (e :: es) k' = if e.1 = k' then some e.2 else lookupKey es k' := by
  unfold lookupKey
  by_cases h : e.1 = k'
  · rw [List.find?_cons_of_pos _ (by simp [h]), if_pos h]
    rfl
  · rw [List.find?_cons_of_neg _ (by simp [h]), if_neg h]

lemma lookupKey_overwrite_ne (es : List (String × ℚ)) (k : String) (v : ℚ)
    (k' : String) (h : ¬ k' = k) :
    lookupKey (es.map (fun x => if x.1 = k then (k, v) else x)) k' =
      lookupKey es k' := by
  induction es with
  | nil => rfl
  | cons e es ih =>
    by_cases he : e.1 = k
    · have h1 : ¬ (k = k') := fun hh => h hh.symm
      have h2 : ¬ (e.1 = k') := by rw [he]; exact h1
      simp only [List.map_cons, he, if_true, if_pos]
      rw [lookupKey_cons, lookupKey_cons, if_neg h1, if_neg h2, ih]
    · simp only [List.map_cons, he, if_false]
      rw [lookupKey_cons, lookupKey_cons, ih]

lemma lookupKey_setKey (m : List (String × ℚ)) (k : String) (v : ℚ)
    (k' : String) :
    lookupKey (setKey m k v) k' = if k' = k then some v else lookupKey m k' := by
  induction m with
  | nil =>
    have hk : setKey [] k v = [(k, v)] := rfl
    rw [hk, lookupKey_cons]
    by_cases h : k' = k
    · rw [if_pos h.symm, if_pos h]
    · rw [if_neg (fun hh : (k, v).1 = k' => h hh.symm), if_neg h]
  | cons e es ih =>
    by_cases he : e.1 = k
    · rw [setKey_cons_eq e es k v he, lookupKey_cons]
      by_cases h : k' = k
      · rw [if_pos h.symm, if_pos h]
      · rw [if_neg (fun hh : k = k' => h hh.symm), if_neg h,
          lookupKey_overwrite_ne es k v k' h, lookupKey_cons,
          if_neg (by rw [he]; exact fun hh : k = k' => h hh.symm)]
    · rw [setKey_cons_ne e es k v he, lookupKey_cons, lookupKey_cons, ih]
      by_cases hk : e.1 = k'
      · have : ¬ k' = k := by rw [← hk]; exact he
        rw [if_pos hk, if_neg this, if_pos hk]
      · rw [if_neg hk, if_neg hk]

lemma lookupKey_foldl_aggStep (k : String) :
    ∀ (ps : List Person) (st : AggState),
      lookupKey (ps.foldl aggStep st).debtMap k =
        (((ps.filter (fun p => p.name = k)).getLast?).map balanceOf).or
          (lookupKey st.debtMap k) := by
  intro ps
  induction ps using List.reverseRecOn with
  | nil => simp
  | append_singleton ps p ih =>
    intro st
    rw [List.foldl_append]
    have hstep : (aggStep (ps.foldl aggStep st) p).debtMap =
        setKey (ps.foldl aggStep st).debtMap p.name (balanceOf p) := rfl
    simp only [List.foldl_cons, List.foldl_nil, hstep, lookupKey_setKey,
      List.filter_append, List.getLast?_append]
    by_cases h : p.name = k
    · simp [h, List.filter_cons]
    · have h2 : ¬ k = p.name := fun hh => h hh.symm
      simp [h, h2, List.filter_cons, ih st]

lemma aggregate_lookup (people : List Person) (k : String) :
    lookupKey (aggregate people).debtMap k =
      ((people.filter (fun p => p.name = k)).getLast?).map balanceOf := by
  have h := lookupKey_foldl_aggStep k people ⟨[], 0, 0⟩
  simpa [aggregate, lookupKey] using h

lemma filter_name_eq_single (people : List Person) (p : Person)
    (hnd : (people.map Person.name).Nodup) (hp : p ∈ people) :
    people.filter (fun q => q.name = p.name) = [p] := by
  induction people with
  | nil => cases hp
  | cons q qs ih =>
    rw [List.map_cons, List.nodup_cons] at hnd
    rcases List.mem_cons.mp hp with rfl | hp'
    · have hq : ∀ r ∈ qs, ¬ r.name = p.name := by
        intro r hr hre
        exact hnd.1 (hre ▸ List.mem_map_of_mem Person.name hr)
      have hfilter : List.filter (fun q => decide (q.name = p.name)) qs = [] := by
        rw [List.filter_eq_nil_iff]
        intro r hr
        simpa using hq r hr
      simp [List.filter_cons, hfilter]
    · have hqp : ¬ q.name = p.name := by
        intro hre
        exact hnd.1 (hre ▸ List.mem_map_of_mem Person.name hp')
      rw [List.filter_cons, if_neg (by simpa using hqp)]
      exact ih hnd.2 hp'

lemma map_fst_overwrite (m : List (String × ℚ)) (k : String) (v : ℚ) :
    (m.map (fun e => if e.1 = k then (k, v) else e)).map Prod.fst =
      m.map Prod.fst := by
  induction m with
  | nil => rfl
  | cons e es ih =>
    by_cases h : e.1 = k <;> simp [h, ih]

lemma setKey_keys_nodup (m : List (String × ℚ)) (k : String) (v : ℚ)
    (h : (m.map Prod.fst).Nodup) : ((setKey m k v).map Prod.fst).Nodup := by
  unfold setKey
  split
  · rw [map_fst_overwrite]
    exact h
  · rename_i hany
    have hk : k ∉ m.map Prod.fst := by
      intro hmem
      rcases List.mem_map.mp hmem with ⟨e, he, hek⟩
      exact hany (List.any_eq_true.mpr ⟨e, he, by simp [hek]⟩)
    simp only [List.map_append, List.map_cons, List.map_nil]
    exact List.Nodup.append h (List.nodup_singleton k)
      (by simpa [List.disjoint_singleton] using hk)

lemma aggregate_keys_nodup (people : List Person) :
    ((aggregate people).debtMap.map Prod.fst).Nodup := by
  have h : ∀ (ps : List Person) (st : AggState),
      (st.debtMap.map Prod.fst).Nodup →
      ((ps.foldl aggStep st).debtMap.map Prod.fst).Nodup := by
    intro ps
    induction ps with
    | nil => intro st h; simpa using h
    | cons p ps ih =>
      intro st h
      exact ih _ (setKey_keys_nodup st.debtMap p.name _ h)
  exact h people ⟨[], 0, 0⟩ (by simp)

lemma mem_setKey (m : List (String × ℚ)) (k : String) (v : ℚ)
    (e : String × ℚ) (h : e ∈ setKey m k v) : e ∈ m ∨ e = (k, v) := by
  unfold setKey at h
  split at h
  · rcases List.mem_map.mp h with ⟨x, hx, hxe⟩
    by_cases hxk : x.1 = k
    · right; simp [hxk] at hxe; exact hxe.symm
    · left; simp [hxk] at hxe; exact hxe ▸ hx
  · rcases List.mem_append.mp h with h1 | h1
    · left; exact h1
    · right; simpa using h1

lemma mem_aggregate_debtMap (people : List Person) (e : String × ℚ)
    (h : e ∈ (aggregate people).debtMap) : ∃ p ∈ people, e.2 = balanceOf p := by
  have key : ∀ (ps : List Person) (st : AggState),
      e ∈ (ps.foldl aggStep st).debtMap →
      e ∈ st.debtMap ∨ ∃ p ∈ ps, e.2 = balanceOf p := by
    intro ps
    induction ps with
    | nil => intro st h; exact Or.inl h
    | cons p ps ih =>
      intro st h
      rcases ih (aggStep st p) h with h1 | ⟨q, hq, he⟩
      · rcases mem_setKey st.debtMap p.name (balanceOf p) e h1 with h2 | h2
        · exact Or.inl h2
        · exact Or.inr ⟨p, List.mem_cons_self p ps, by rw [h2]⟩
      · exact Or.inr ⟨q, List.mem_cons_of_mem p hq, he⟩
  rcases key people ⟨[], 0, 0⟩ h with h1 | h1
  · cases h1
  · exact h1

lemma sum_map_balance (l : List Person) :
    (l.map balanceOf).sum = (l.map paidOf).sum - (l.map spentOf).sum := by
  induction l with
  | nil => simp
  | cons p ps ih => simp [balanceOf, ih]; ring

lemma partitionEntries_zero (entries : List (String × ℚ))
    (h : ∀ e ∈ entries, e.2 = 0) : partitionEntries entries = ([], []) := by
  have key : ∀ (l : List (String × ℚ)) (acc : List CD × List CD),
      (∀ e ∈ l, e.2 = 0) →
      l.foldl (fun acc e =>
        if e.2 > 0 then (acc.1 ++ [⟨e.1, e.2⟩], acc.2)
        else if e.2 < 0 then (acc.1, acc.2 ++ [⟨e.1, |e.2|⟩])
        else acc) acc = acc := by
    intro l
    induction l with
    | nil => intro acc _; rfl
    | cons e es ih =>
      intro acc hz
      have he : e.2 = 0 := hz e (List.mem_cons_self e es)
      rw [List.foldl_cons]
      rw [if_neg (by rw [he]; exact lt_irrefl 0), if_neg (by rw [he]; exact lt_irrefl 0)]
      exact ih acc (fun x hx => hz x (List.mem_cons_of_mem e hx))
  exact key entries ([], []) h

lemma matchRec_nil_left (ds : List CD) : matchRec [] ds = [] := by
  simp [matchRec]

lemma matchRec_nil_right (cs : List CD) : matchRec cs [] = [] := by
  cases cs <;> simp [matchRec]

/-- C1: `calculateDebts` returns the error result (message "Totals do not
match") iff `|totalSpent − totalPaid| > 0.01` where the totals are the grand
sums over all participants; otherwise it returns a transfer list (the result
type makes exactly one of the two fields populated). -/
theorem claim_C1 (people : List Person) :
    (calculateDebts people = SettlementResult.error "Totals do not match" ↔
      1 / 100 < |(people.map spentOf).sum - (people.map paidOf).sum|) ∧
    (|(people.map spentOf).sum - (people.map paidOf).sum| ≤ 1 / 100 →
      ∃ ts, calculateDebts people = SettlementResult.debts ts) := by
  simp only [calculateDebts, aggregate_totalSpent, aggregate_totalPaid]
  split_ifs with h
  · exact ⟨⟨fun _ => h, fun _ => rfl⟩, fun hle => absurd h (not_lt.mpr hle)⟩
  · refine ⟨⟨fun he => ?_, fun hlt => absurd hlt h⟩, fun _ => ⟨_, rfl⟩⟩
    cases he

unseal Rat.add Rat.sub Rat.mul Rat.inv List.merge List.mergeSort matchRec in
/-- C1 witness: a concrete imbalanced ledger produces exactly the error, and a
concrete balanced ledger produces a transfer list. -/
theorem claim_C1_witness :
    calculateDebts [⟨"Alice", [⟨"a", 10⟩], []⟩, ⟨"Bob", [], [15]⟩] =
      SettlementResult.error "Totals do not match" ∧
    ∃ ts, calculateDebts [⟨"Solo", [], []⟩] = SettlementResult.debts ts :=
  ⟨(claim_C1 [⟨"Alice", [⟨"a", 10⟩], []⟩, ⟨"Bob", [], [15]⟩]).1.mpr (by decide),
   (claim_C1 [⟨"Solo", [], []⟩]).2 (by decide)⟩

/-- C3: the aggregation stage is correct: `totalSpent` and `totalPaid` are the
grand sums of the per-participant `spent` and `paid` amounts, and (for
distinctly named participants, the case in which "the computed net balance of
p" is well-defined — duplicate names are the subject of C10) the balance
recorded in `debtMap` for each participant equals the sum of its payments
minus the sum of its item values. Empty lists contribute 0 via the empty sum. -/
theorem claim_C3 (people : List Person) :
    (aggregate people).totalSpent = (people.map spentOf).sum ∧
    (aggregate people).totalPaid = (people.map paidOf).sum ∧
    ((people.map Person.name).Nodup → ∀ p ∈ people,
      lookupKey (aggregate people).debtMap p.name =
        some (p.payments.sum - (p.items.map Item.value).sum)) := by
  refine ⟨aggregate_totalSpent people, aggregate_totalPaid people, ?_⟩
  intro hnd p hp
  rw [aggregate_lookup, filter_name_eq_single people p hnd hp]
  simp [balanceOf, spentOf_eq_sum, paidOf_eq_sum]

/-- C3 witness at a concrete two-person ledger. -/
theorem claim_C3_witness :
    lookupKey (aggregate [⟨"Alice", [⟨"x", 10⟩], [30]⟩,
        ⟨"Bob", [⟨"y", 20⟩], []⟩]).debtMap "Alice" = some ((30 : ℚ) - 10) := by
  have h := (claim_C3 [⟨"Alice", [⟨"x", 10⟩], [30]⟩, ⟨"Bob", [⟨"y", 20⟩], []⟩]).2.2
    (by decide) ⟨"Alice", [⟨"x", 10⟩], [30]⟩ (by simp)
  simpa using h

/-- C6: a ledger in which every participant's balance is exactly 0 (including
the empty list and participants with no items/payments) yields an empty
transfer list and no error. -/
theorem claim_C6 (people : List Person) (h : ∀ p ∈ people, balanceOf p = 0) :
    calculateDebts people = SettlementResult.debts [] := by
  have hz : (people.map balanceOf).sum = 0 := by
    apply List.sum_eq_zero
    intro x hx
    rcases List.mem_map.mp hx with ⟨p, hp, rfl⟩
    exact h p hp
  have hmap : ∀ e ∈ (aggregate people).debtMap, e.2 = 0 := by
    intro e he
    rcases mem_aggregate_debtMap people e he with ⟨p, hp, hep⟩
    rw [hep]
    exact h p hp
  have hsum : (people.map paidOf).sum - (people.map spentOf).sum = 0 := by
    rw [← sum_map_balance]
    exact hz
  simp only [calculateDebts]
  split_ifs with hcond
  · exfalso
    rw [aggregate_totalSpent, aggregate_totalPaid] at hcond
    have heq : (people.map spentOf).sum = (people.map paidOf).sum := by linarith
    rw [heq, sub_self, abs_zero] at hcond
    exact absurd hcond (by norm_num)
  · rw [partitionEntries_zero _ hmap]
    simp [sortDesc, matchRec_nil_left]

unseal Rat.sub in
/-- C6 witness: a single participant with no items and no payments. -/
theorem claim_C6_witness :
    calculateDebts [⟨"Solo", [], []⟩] = SettlementResult.debts [] :=
  claim_C6 [⟨"Solo", [], []⟩] (by decide)

/-- C9: the settlement computation is deterministic — two invocations on the
same ledger snapshot produce identical results. In this embedding the stages
are pure functions (the sort is the deterministic stable `mergeSort`), so the
result depends only on the snapshot. -/
theorem claim_C9 (ps1 ps2 : List Person) (h : ps1 = ps2) :
    calculateDebts ps1 = calculateDebts ps2 := by
  rw [h]

/-- C9 witness at a concrete snapshot. -/
theorem claim_C9_witness :
    calculateDebts [⟨"Solo", [], []⟩] = calculateDebts [⟨"Solo", [], []⟩] :=
  claim_C9 [⟨"Solo", [], []⟩] [⟨"Solo", [], []⟩] rfl

/-- Two participants sharing the name "A": the earlier one spent 5 (balance
−5), the later one paid 5 (balance +5). -/
def dupPeople : List Person :=
  [⟨"A", [⟨"i", 5⟩], []⟩, ⟨"A", [], [5]⟩]

unseal Rat.add Rat.sub Rat.mul Rat.inv List.merge List.mergeSort matchRec in
/-- C10: with duplicate names the balance map keeps only the last-written
balance (in general: the map entry for `k` is the balance of the last
participant named `k`), while `totalSpent`/`totalPaid` still include every
participant; on `dupPeople` the earlier participant's −5 deficit is absent
from the debtor list, so its net position is excluded from matching. -/
theorem claim_C10 :
    (∀ (people : List Person) (k : String),
      lookupKey (aggregate people).debtMap k =
        ((people.filter (fun p => p.name = k)).getLast?).map balanceOf) ∧
    lookupKey (aggregate dupPeople).debtMap "A" = some 5 ∧
    balanceOf ⟨"A", [⟨"i", 5⟩], []⟩ = -5 ∧
    (aggregate dupPeople).totalSpent = 5 ∧
    (aggregate dupPeople).totalPaid = 5 ∧
    (partitionEntries (aggregate dupPeople).debtMap).2 = [] ∧
    calculateDebts dupPeople = SettlementResult.debts [] := by
  refine ⟨aggregate_lookup, ?_, ?_, ?_, ?_, ?_, ?_⟩ <;> decide

lemma min_sub_or (a b : ℚ) : a - min a b = 0 ∨ b - min a b = 0 := by
  rcases le_total a b with h | h
  · left; rw [min_eq_left h]; ring
  · right; rw [min_eq_right h]; ring

lemma matchRec_cons_cons (c d : CD) (cs ds : List CD) :
    matchRec (c :: cs) (d :: ds) =
      { from_ := d.name, to_ := c.name, amount := min c.amount d.amount } ::
        matchRec
          (if c.amount - min c.amount d.amount = 0 then cs
            else ⟨c.name, c.amount - min c.amount d.amount⟩ :: cs)
          (if d.amount - min c.amount d.amount = 0 then ds
            else ⟨d.name, d.amount - min c.amount d.amount⟩ :: ds) := by
  rw [matchRec]

lemma matchRec_my_induct (motive : List CD → List CD → Prop)
    (h1 : ∀ ds, motive [] ds)
    (h2 : ∀ cs, motive cs [])
    (h3 : ∀ (c : CD) (cs : List CD) (d : CD) (ds : List CD),
        motive
          (if c.amount - min c.amount d.amount = 0 then cs
            else ⟨c.name, c.amount - min c.amount d.amount⟩ :: cs)
          (if d.amount - min c.amount d.amount = 0 then ds
            else ⟨d.name, d.amount - min c.amount d.amount⟩ :: ds) →
        motive (c :: cs) (d :: ds)) :
    ∀ cs ds, motive cs ds := by
  have key : ∀ (n : ℕ) (cs ds : List CD), cs.length + ds.length ≤ n → motive cs ds := by
    intro n
    induction n with
    | zero =>
      intro cs ds h
      cases cs with
      | nil => exact h1 ds
      | cons c cs => exfalso; simp only [List.length_cons] at h; omega
    | succ n ihn =>
      intro cs ds h
      cases cs with
      | nil => exact h1 ds
      | cons c cs =>
        cases ds with
        | nil => exact h2 _
        | cons d ds =>
          apply h3
          apply ihn
          have hA : (if c.amount - min c.amount d.amount = 0 then cs
              else (⟨c.name, c.amount - min c.amount d.amount⟩ : CD) :: cs).length
              ≤ cs.length + 1 := by split <;> simp
          have hB : (if d.amount - min c.amount d.amount = 0 then ds
              else (⟨d.name, d.amount - min c.amount d.amount⟩ : CD) :: ds).length
              ≤ ds.length + 1 := by split <;> simp
          simp only [List.length_cons] at h
          rcases min_sub_or c.amount d.amount with hz | hz
          · rw [if_pos hz]
            omega
          · rw [if_pos hz]
            omega
  intro cs ds
  exact key (cs.length + ds.length) cs ds le_rfl

lemma matchRec_to_mem (cs ds : List CD) :
    ∀ t ∈ matchRec cs ds, t.to_ ∈ cs.map CD.name := by
  induction cs, ds using matchRec_my_induct with
  | h1 ds => simp [matchRec_nil_left]
  | h2 cs => simp [matchRec_nil_right]
  | h3 c cs d ds ih =>
    intro t ht
    rw [matchRec_cons_cons] at ht
    rcases List.mem_cons.mp ht with rfl | ht2
    · exact List.mem_cons_self _ _
    · have h := ih t ht2
      rw [List.map_cons]
      split at h
      · exact List.mem_cons_of_mem _ h
      · rw [List.map_cons] at h
        rcases List.mem_cons.mp h with h0 | h0
        · rw [h0]; exact List.mem_cons_self _ _
        · exact List.mem_cons_of_mem _ h0

lemma matchRec_from_mem (cs ds : List CD) :
    ∀ t ∈ matchRec cs ds, t.from_ ∈ ds.map CD.name := by
  induction cs, ds using matchRec_my_induct with
  | h1 ds => simp [matchRec_nil_left]
  | h2 cs => simp [matchRec_nil_right]
  | h3 c cs d ds ih =>
    intro t ht
    rw [matchRec_cons_cons] at ht
    rcases List.mem_cons.mp ht with rfl | ht2
    · exact List.mem_cons_self _ _
    · have h := ih t ht2
      rw [List.map_cons]
      split at h
      · exact List.mem_cons_of_mem _ h
      · rw [List.map_cons] at h
        rcases List.mem_cons.mp h with h0 | h0
        · rw [h0]; exact List.mem_cons_self _ _
        · exact List.mem_cons_of_mem _ h0

lemma matchRec_pos (cs ds : List CD) :
    (∀ x ∈ cs, 0 < x.amount) → (∀ x ∈ ds, 0 < x.amount) →
    ∀ t ∈ matchRec cs ds, 0 < t.amount := by
  induction cs, ds using matchRec_my_induct with
  | h1 ds => simp [matchRec_nil_left]
  | h2 cs => simp [matchRec_nil_right]
  | h3 c cs d ds ih =>
    intro hcs hds t ht
    have hc_pos : 0 < c.amount := hcs c (List.mem_cons_self _ _)
    have hd_pos : 0 < d.amount := hds d (List.mem_cons_self _ _)
    have hm_pos : 0 < min c.amount d.amount := lt_min hc_pos hd_pos
    rw [matchRec_cons_cons] at ht
    rcases List.mem_cons.mp ht with rfl | ht2
    · exact hm_pos
    · refine ih ?_ ?_ t ht2
      · intro x hx
        split at hx
        · exact hcs x (List.mem_cons_of_mem _ hx)
        · rcases List.mem_cons.mp hx with rfl | hx2
          · rename_i hz
            have hle : min c.amount d.amount ≤ c.amount := min_le_left _ _
            have hge : (0:ℚ) ≤ c.amount - min c.amount d.amount := by linarith
            exact lt_of_le_of_ne hge (fun hh => hz hh.symm)
          · exact hcs x (List.mem_cons_of_mem _ hx2)
      · intro x hx
        split at hx
        · exact hds x (List.mem_cons_of_mem _ hx)
        · rcases List.mem_cons.mp hx with rfl | hx2
          · rename_i hz
            have hle : min c.amount d.amount ≤ d.amount := min_le_right _ _
            have hge : (0:ℚ) ≤ d.amount - min c.amount d.amount := by linarith
            exact lt_of_le_of_ne hge (fun hh => hz hh.symm)
          · exact hds x (List.mem_cons_of_mem _ hx2)

lemma matchRec_length (cs ds : List CD) :
    cs ≠ [] → ds ≠ [] → (matchRec cs ds).length + 1 ≤ cs.length + ds.length := by
  induction cs, ds using matchRec_my_induct with
  | h1 ds => intro h _; exact absurd rfl h
  | h2 cs => intro _ h; exact absurd rfl h
  | h3 c cs d ds ih =>
    intro _ _
    rw [matchRec_cons_cons, List.length_cons]
    rcases hA : (if c.amount - min c.amount d.amount = 0 then cs
        else (⟨c.name, c.amount - min c.amount d.amount⟩ : CD) :: cs) with _ | ⟨a, as⟩
    · rw [matchRec_nil_left]
      simp only [List.length_cons, List.length_nil]
      omega
    · rcases hB : (if d.amount - min c.amount d.amount = 0 then ds
          else (⟨d.name, d.amount - min c.amount d.amount⟩ : CD) :: ds) with _ | ⟨b, bs⟩
      · rw [matchRec_nil_right]
        simp only [List.length_cons, List.length_nil]
        omega
      · have hAlen : (a :: as).length ≤ cs.length + 1 := by
          rw [← hA]; split <;> simp
        have hBlen : (b :: bs).length ≤ ds.length + 1 := by
          rw [← hB]; split <;> simp
        have hdrop : (a :: as).length + (b :: bs).length ≤ cs.length + ds.length + 1 := by
          rcases min_sub_or c.amount d.amount with hz | hz
          · have h0 : (a :: as).length ≤ cs.length := by
              rw [← hA, if_pos hz]
            omega
          · have h0 : (b :: bs).length ≤ ds.length := by
              rw [← hB, if_pos hz]
            omega
        have hrec := ih (by rw [hA]; exact List.cons_ne_nil a as)
          (by rw [hB]; exact List.cons_ne_nil b bs)
        rw [hA, hB] at hrec
        simp only [List.length_cons] at hAlen hBlen hdrop hrec ⊢
        omega

lemma matchRec_to_sum (cs ds : List CD) :
    (∀ x ∈ cs, 0 < x.amount) → (∀ x ∈ ds, 0 < x.amount) →
    (cs.map CD.amount).sum = (ds.map CD.amount).sum →
    ((cs.map CD.name).Nodup) →
    ∀ c0 ∈ cs,
      (((matchRec cs ds).filter (fun t => t.to_ = c0.name)).map Transfer.amount).sum
        = c0.amount := by
  induction cs, ds using matchRec_my_induct with
  | h1 ds => intro _ _ _ _ c0 hc0; cases hc0
  | h2 cs =>
    intro hcs _ hsum _ c0 hc0
    exfalso
    have hne : cs ≠ [] := by intro h; rw [h] at hc0; cases hc0
    have hpos : 0 < (cs.map CD.amount).sum := by
      apply List.sum_pos
      · intro a ha
        rcases List.mem_map.mp ha with ⟨x, hx, rfl⟩
        exact hcs x hx
      · simpa using hne
    rw [hsum] at hpos
    simp at hpos
  | h3 c cs d ds ih =>
    intro hcs hds hsum hnd c0 hc0
    rw [List.map_cons, List.nodup_cons] at hnd
    have hc_pos : 0 < c.amount := hcs c (List.mem_cons_self _ _)
    have hd_pos : 0 < d.amount := hds d (List.mem_cons_self _ _)
    have hm_le_c : min c.amount d.amount ≤ c.amount := min_le_left _ _
    have hm_le_d : min c.amount d.amount ≤ d.amount := min_le_right _ _
    have hm_pos : 0 < min c.amount d.amount := lt_min hc_pos hd_pos
    have hA_pos : ∀ x ∈ (if c.amount - min c.amount d.amount = 0 then cs
        else (⟨c.name, c.amount - min c.amount d.amount⟩ : CD) :: cs), 0 < x.amount := by
      intro x hx
      split at hx
      · exact hcs x (List.mem_cons_of_mem _ hx)
      · rcases List.mem_cons.mp hx with rfl | hx2
        · rename_i hz
          have hge : (0:ℚ) ≤ c.amount - min c.amount d.amount := by linarith
          exact lt_of_le_of_ne hge (fun hh => hz hh.symm)
        · exact hcs x (List.mem_cons_of_mem _ hx2)
    have hB_pos : ∀ x ∈ (if d.amount - min c.amount d.amount = 0 then ds
        else (⟨d.name, d.amount - min c.amount d.amount⟩ : CD) :: ds), 0 < x.amount := by
      intro x hx
      split at hx
      · exact hds x (List.mem_cons_of_mem _ hx)
      · rcases List.mem_cons.mp hx with rfl | hx2
        · rename_i hz
          have hge : (0:ℚ) ≤ d.amount - min c.amount d.amount := by linarith
          exact lt_of_le_of_ne hge (fun hh => hz hh.symm)
        · exact hds x (List.mem_cons_of_mem _ hx2)
    have hA_sum : (((if c.amount - min c.amount d.amount = 0 then cs
        else (⟨c.name, c.amount - min c.amount d.amount⟩ : CD) :: cs).map CD.amount).sum)
        = (c.amount + (cs.map CD.amount).sum) - min c.amount d.amount := by
      split
      · rename_i hz
        have hmc : min c.amount d.amount = c.amount := by linarith
        rw [hmc]; ring
      · rw [List.map_cons, List.sum_cons]; ring
    have hB_sum : (((if d.amount - min c.amount d.amount = 0 then ds
        else (⟨d.name, d.amount - min c.amount d.amount⟩ : CD) :: ds).map CD.amount).sum)
        = (d.amount + (ds.map CD.amount).sum) - min c.amount d.amount := by
      split
      · rename_i hz
        have hmd : min c.amount d.amount = d.amount := by linarith
        rw [hmd]; ring
      · rw [List.map_cons, List.sum_cons]; ring
    have hsum2 : c.amount + (cs.map CD.amount).sum = d.amount + (ds.map CD.amount).sum := by
      rw [List.map_cons, List.sum_cons, List.map_cons, List.sum_cons] at hsum
      exact hsum
    have hnd2 : (((if c.amount - min c.amount d.amount = 0 then cs
        else (⟨c.name, c.amount - min c.amount d.amount⟩ : CD) :: cs).map CD.name)).Nodup := by
      split
      · exact hnd.2
      · rw [List.map_cons]
        exact List.nodup_cons.mpr ⟨hnd.1, hnd.2⟩
    have ih2 := ih hA_pos hB_pos (by rw [hA_sum, hB_sum, hsum2]) hnd2
    rw [matchRec_cons_cons, List.filter_cons]
    rcases List.mem_cons.mp hc0 with hceq | hc0tail
    · rw [hceq]
      rw [if_pos (by simp [hceq])]
      rw [List.map_cons, List.sum_cons]
      by_cases hz : c.amount - min c.amount d.amount = 0
      · rw [if_pos hz] at ih2 ⊢
        have hfil : ((matchRec cs (if d.amount - min c.amount d.amount = 0 then ds
            else (⟨d.name, d.amount - min c.amount d.amount⟩ : CD) :: ds)).filter
              (fun t => t.to_ = c.name)) = [] := by
          rw [List.filter_eq_nil_iff]
          intro t ht
          have hmem := matchRec_to_mem _ _ t ht
          simp only [decide_eq_true_eq]
          intro hteq
          exact hnd.1 (hteq ▸ hmem)
        rw [hfil]
        simp only [List.map_nil, List.sum_nil]
        have : min c.amount d.amount = c.amount := by linarith
        rw [this]; ring
      · rw [if_neg hz] at ih2 ⊢
        have hc2 := ih2 ⟨c.name, c.amount - min c.amount d.amount⟩
          (List.mem_cons_self _ _)
        simp only at hc2
        rw [hc2]
        ring
    · have hc0name : ¬ c0.name = c.name := by
        intro he
        exact hnd.1 (he ▸ List.mem_map_of_mem CD.name hc0tail)
      rw [if_neg (by simpa using fun hh : c.name = c0.name => hc0name hh.symm)]
      apply ih2 c0
      split
      · exact hc0tail
      · exact List.mem_cons_of_mem _ hc0tail

lemma matchRec_from_sum (cs ds : List CD) :
    (∀ x ∈ cs, 0 < x.amount) → (∀ x ∈ ds, 0 < x.amount) →
    (cs.map CD.amount).sum = (ds.map CD.amount).sum →
    ((ds.map CD.name).Nodup) →
    ∀ d0 ∈ ds,
      (((matchRec cs ds).filter (fun t => t.from_ = d0.name)).map Transfer.amount).sum
        = d0.amount := by
  induction cs, ds using matchRec_my_induct with
  | h1 ds =>
    intro _ hds hsum _ d0 hd0
    exfalso
    have hne : ds ≠ [] := by intro h; rw [h] at hd0; cases hd0
    have hpos : 0 < (ds.map CD.amount).sum := by
      apply List.sum_pos
      · intro a ha
        rcases List.mem_map.mp ha with ⟨x, hx, rfl⟩
        exact hds x hx
      · simpa using hne
    rw [← hsum] at hpos
    simp at hpos
  | h2 cs =>
    intro _ _ _ _ d0 hd0
    cases hd0
  | h3 c cs d ds ih =>
    intro hcs hds hsum hnd d0 hd0
    rw [List.map_cons, List.nodup_cons] at hnd
    have hc_pos : 0 < c.amount := hcs c (List.mem_cons_self _ _)
    have hd_pos : 0 < d.amount := hds d (List.mem_cons_self _ _)
    have hm_le_c : min c.amount d.amount ≤ c.amount := min_le_left _ _
    have hm_le_d : min c.amount d.amount ≤ d.amount := min_le_right _ _
    have hm_pos : 0 < min c.amount d.amount := lt_min hc_pos hd_pos
    have hA_pos : ∀ x ∈ (if c.amount - min c.amount d.amount = 0 then cs
        else (⟨c.name, c.amount - min c.amount d.amount⟩ : CD) :: cs), 0 < x.amount := by
      intro x hx
      split at hx
      · exact hcs x (List.mem_cons_of_mem _ hx)
      · rcases List.mem_cons.mp hx with rfl | hx2
        · rename_i hz
          have hge : (0:ℚ) ≤ c.amount - min c.amount d.amount := by linarith
          exact lt_of_le_of_ne hge (fun hh => hz hh.symm)
        · exact hcs x (List.mem_cons_of_mem _ hx2)
    have hB_pos : ∀ x ∈ (if d.amount - min c.amount d.amount = 0 then ds
        else (⟨d.name, d.amount - min c.amount d.amount⟩ : CD) :: ds), 0 < x.amount := by
      intro x hx
      split at hx
      · exact hds x (List.mem_cons_of_mem _ hx)
      · rcases List.mem_cons.mp hx with rfl | hx2
        · rename_i hz
          have hge : (0:ℚ) ≤ d.amount - min c.amount d.amount := by linarith
          exact lt_of_le_of_ne hge (fun hh => hz hh.symm)
        · exact hds x (List.mem_cons_of_mem _ hx2)
    have hA_sum : (((if c.amount - min c.amount d.amount = 0 then cs
        else (⟨c.name, c.amount - min c.amount d.amount⟩ : CD) :: cs).map CD.amount).sum)
        = (c.amount + (cs.map CD.amount).sum) - min c.amount d.amount := by
      split
      · rename_i hz
        have hmc : min c.amount d.amount = c.amount := by linarith
        rw [hmc]; ring
      · rw [List.map_cons, List.sum_cons]; ring
    have hB_sum : (((if d.amount - min c.amount d.amount = 0 then ds
        else (⟨d.name, d.amount - min c.amount d.amount⟩ : CD) :: ds).map CD.amount).sum)
        = (d.amount + (ds.map CD.amount).sum) - min c.amount d.amount := by
      split
      · rename_i hz
        have hmd : min c.amount d.amount = d.amount := by linarith
        rw [hmd]; ring
      · rw [List.map_cons, List.sum_cons]; ring
    have hsum2 : c.amount + (cs.map CD.amount).sum = d.amount + (ds.map CD.amount).sum := by
      rw [List.map_cons, List.sum_cons, List.map_cons, List.sum_cons] at hsum
      exact hsum
    have hnd2 : (((if d.amount - min c.amount d.amount = 0 then ds
        else (⟨d.name, d.amount - min c.amount d.amount⟩ : CD) :: ds).map CD.name)).Nodup := by
      split
      · exact hnd.2
      · rw [List.map_cons]
        exact List.nodup_cons.mpr ⟨hnd.1, hnd.2⟩
    have ih2 := ih hA_pos hB_pos (by rw [hA_sum, hB_sum, hsum2]) hnd2
    rw [matchRec_cons_cons, List.filter_cons]
    rcases List.mem_cons.mp hd0 with hdeq | hd0tail
    · rw [hdeq]
      rw [if_pos (by simp)]
      rw [List.map_cons, List.sum_cons]
      by_cases hz : d.amount - min c.amount d.amount = 0
      · rw [if_pos hz] at ih2 ⊢
        have hfil : (((matchRec (if c.amount - min c.amount d.amount = 0 then cs
            else (⟨c.name, c.amount - min c.amount d.amount⟩ : CD) :: cs) ds)).filter
              (fun t => t.from_ = d.name)) = [] := by
          rw [List.filter_eq_nil_iff]
          intro t ht
          have hmem := matchRec_from_mem _ _ t ht
          simp only [decide_eq_true_eq]
          intro hteq
          exact hnd.1 (hteq ▸ hmem)
        rw [hfil]
        simp only [List.map_nil, List.sum_nil]
        have : min c.amount d.amount = d.amount := by linarith
        rw [this]; ring
      · rw [if_neg hz] at ih2 ⊢
        have hd2 := ih2 ⟨d.name, d.amount - min c.amount d.amount⟩
          (List.mem_cons_self _ _)
        simp only at hd2
        rw [hd2]
        ring
    · have hd0name : ¬ d0.name = d.name := by
        intro he
        exact hnd.1 (he ▸ List.mem_map_of_mem CD.name hd0tail)
      rw [if_neg (by simpa using fun hh : d.name = d0.name => hd0name hh.symm)]
      apply ih2 d0
      split
      · exact hd0tail
      · exact List.mem_cons_of_mem _ hd0tail

lemma partitionEntries_eq (entries : List (String × ℚ)) :
    partitionEntries entries =
      (entries.filterMap (fun e => if 0 < e.2 then some ⟨e.1, e.2⟩ else none),
       entries.filterMap (fun e => if e.2 < 0 then some ⟨e.1, |e.2|⟩ else none)) := by
  have key : ∀ (l : List (String × ℚ)) (acc : List CD × List CD),
      l.foldl (fun acc e =>
        if e.2 > 0 then (acc.1 ++ [⟨e.1, e.2⟩], acc.2)
        else if e.2 < 0 then (acc.1, acc.2 ++ [⟨e.1, |e.2|⟩])
        else acc) acc =
      (acc.1 ++ l.filterMap (fun e => if 0 < e.2 then some ⟨e.1, e.2⟩ else none),
       acc.2 ++ l.filterMap (fun e => if e.2 < 0 then some ⟨e.1, |e.2|⟩ else none)) := by
    intro l
    induction l with
    | nil => intro acc; simp
    | cons e es ih =>
      intro acc
      rw [List.foldl_cons]
      by_cases h1 : 0 < e.2
      · have h2 : ¬ e.2 < 0 := by linarith
        rw [if_pos h1, ih]
        simp [List.filterMap_cons, h1, h2]
      · by_cases h2 : e.2 < 0
        · rw [if_neg h1, if_pos h2, ih]
          simp [List.filterMap_cons, h1, h2]
        · rw [if_neg h1, if_neg h2, ih]
          simp [List.filterMap_cons, h1, h2]
  rw [partitionEntries, key entries ([], [])]
  simp

lemma creditors_pos (entries : List (String × ℚ)) :
    ∀ x ∈ (partitionEntries entries).1, 0 < x.amount := by
  rw [partitionEntries_eq]
  intro x hx
  rcases List.mem_filterMap.mp hx with ⟨e, _, hfe⟩
  split at hfe
  · rename_i hpos
    cases hfe
    exact hpos
  · cases hfe

lemma debtors_pos (entries : List (String × ℚ)) :
    ∀ x ∈ (partitionEntries entries).2, 0 < x.amount := by
  rw [partitionEntries_eq]
  intro x hx
  rcases List.mem_filterMap.mp hx with ⟨e, _, hfe⟩
  split at hfe
  · rename_i hneg
    cases hfe
    exact abs_pos.mpr (ne_of_lt hneg)
  · cases hfe

lemma filterMap_names_sublist (fn : String × ℚ → Option CD)
    (hfn : ∀ e x, fn e = some x → x.name = e.1) :
    ∀ l : List (String × ℚ), ((l.filterMap fn).map CD.name).Sublist (l.map Prod.fst) := by
  intro l
  induction l with
  | nil => simp
  | cons e es ih =>
    rw [List.filterMap_cons, List.map_cons]
    split
    · exact ih.cons _
    · rename_i x hx
      rw [List.map_cons, hfn e x hx]
      exact ih.cons₂ _

lemma creditors_names_sublist (entries : List (String × ℚ)) :
    ((partitionEntries entries).1.map CD.name).Sublist (entries.map Prod.fst) := by
  rw [partitionEntries_eq]
  refine filterMap_names_sublist _ ?_ entries
  intro e x h
  split at h
  · cases h; rfl
  · cases h

lemma debtors_names_sublist (entries : List (String × ℚ)) :
    ((partitionEntries entries).2.map CD.name).Sublist (entries.map Prod.fst) := by
  rw [partitionEntries_eq]
  refine filterMap_names_sublist _ ?_ entries
  intro e x h
  split at h
  · cases h; rfl
  · cases h

lemma partition_sum (entries : List (String × ℚ)) :
    ((partitionEntries entries).1.map CD.amount).sum -
      ((partitionEntries entries).2.map CD.amount).sum =
      (entries.map Prod.snd).sum := by
  rw [partitionEntries_eq]
  induction entries with
  | nil => simp
  | cons e es ih =>
    simp only at ih ⊢
    rw [List.filterMap_cons, List.filterMap_cons, List.map_cons, List.sum_cons]
    by_cases h1 : 0 < e.2
    · have h2 : ¬ e.2 < 0 := by linarith
      rw [if_pos h1, if_neg h2, List.map_cons, List.sum_cons]
      have hhd : CD.amount ⟨e.1, e.2⟩ = e.2 := rfl
      rw [hhd]
      linarith
    · by_cases h2 : e.2 < 0
      · rw [if_neg h1, if_pos h2, List.map_cons, List.sum_cons]
        have hhd : CD.amount ⟨e.1, |e.2|⟩ = |e.2| := rfl
        have habs : |e.2| = -e.2 := abs_of_neg h2
        rw [hhd, habs]
        linarith
      · have h0 : e.2 = 0 := by linarith
        rw [if_neg h1, if_neg h2, h0]
        linarith

lemma calculateDebts_debts_inv (people : List Person) (ts : List Transfer)
    (h : calculateDebts people = SettlementResult.debts ts) :
    ts = matchRec (sortDesc (partitionEntries (aggregate people).debtMap).1)
        (sortDesc (partitionEntries (aggregate people).debtMap).2) := by
  simp only [calculateDebts] at h
  split_ifs at h with hc
  cases h
  rfl

lemma sortDesc_perm (l : List CD) : (sortDesc l).Perm l :=
  List.mergeSort_perm l _

lemma sortDesc_names_nodup (l : List CD) (h : (l.map CD.name).Nodup) :
    ((sortDesc l).map CD.name).Nodup :=
  (((sortDesc_perm l).map CD.name).nodup_iff).mpr h

lemma sortDesc_amount_sum (l : List CD) :
    ((sortDesc l).map CD.amount).sum = (l.map CD.amount).sum :=
  ((sortDesc_perm l).map CD.amount).sum_eq

unseal Rat.add Rat.sub Rat.mul Rat.inv List.merge List.mergeSort matchRec in
/-- C2 counterexample: the single participant "A" with the lone payment 0.01
passes validation (|0 − 0.01| = 0.01 is not > 0.01) and is a creditor with
balance 0.01, yet the returned transfer list is empty, so the transfers to "A"
sum to 0 ≠ 0.01. Hence conservation does not hold for every validated ledger. -/
theorem claim_C2_counterexample :
    ¬ (∀ (people : List Person) (ts : List Transfer),
        calculateDebts people = SettlementResult.debts ts →
        ∀ e ∈ (aggregate people).debtMap, 0 < e.2 →
          ((ts.filter (fun t => t.to_ = e.1)).map Transfer.amount).sum = e.2) := by
  intro hclaim
  have h := hclaim [⟨"A", [], [1 / 100]⟩] [] (by decide) ("A", 1 / 100)
    (by decide) (by decide)
  norm_num at h

/-- C2 (amended): the transfer list exactly redistributes every surplus and
deficit — the transfers into each positive-balance name sum to its balance and
the transfers out of each negative-balance name sum to the absolute balance —
provided the name-keyed balances sum to exactly zero (for distinct names this
says `totalSpent = totalPaid` exactly; the 0.01 validation tolerance alone is
not enough, as the counterexample shows the residual is silently dropped). -/
theorem claim_C2 (people : List Person) (ts : List Transfer)
    (hts : calculateDebts people = SettlementResult.debts ts)
    (hzero : ((aggregate people).debtMap.map Prod.snd).sum = 0) :
    ∀ e ∈ (aggregate people).debtMap,
      (0 < e.2 →
        ((ts.filter (fun t => t.to_ = e.1)).map Transfer.amount).sum = e.2) ∧
      (e.2 < 0 →
        ((ts.filter (fun t => t.from_ = e.1)).map Transfer.amount).sum = |e.2|) := by
  have hts2 := calculateDebts_debts_inv people ts hts
  have hk : ((aggregate people).debtMap.map Prod.fst).Nodup := aggregate_keys_nodup people
  have hcr_pos : ∀ x ∈ sortDesc (partitionEntries (aggregate people).debtMap).1,
      0 < x.amount := by
    intro x hx
    exact creditors_pos _ x ((sortDesc_perm _).mem_iff.mp hx)
  have hdb_pos : ∀ x ∈ sortDesc (partitionEntries (aggregate people).debtMap).2,
      0 < x.amount := by
    intro x hx
    exact debtors_pos _ x ((sortDesc_perm _).mem_iff.mp hx)
  have hsum : ((sortDesc (partitionEntries (aggregate people).debtMap).1).map CD.amount).sum
      = ((sortDesc (partitionEntries (aggregate people).debtMap).2).map CD.amount).sum := by
    rw [sortDesc_amount_sum, sortDesc_amount_sum]
    have hps := partition_sum (aggregate people).debtMap
    rw [hzero] at hps
    linarith
  have hcr_nd : ((sortDesc (partitionEntries (aggregate people).debtMap).1).map CD.name).Nodup :=
    sortDesc_names_nodup _ ((creditors_names_sublist _).nodup hk)
  have hdb_nd : ((sortDesc (partitionEntries (aggregate people).debtMap).2).map CD.name).Nodup :=
    sortDesc_names_nodup _ ((debtors_names_sublist _).nodup hk)
  intro e he
  constructor
  · intro hpos
    have hmem : (⟨e.1, e.2⟩ : CD) ∈ (partitionEntries (aggregate people).debtMap).1 := by
      rw [partitionEntries_eq]
      exact List.mem_filterMap.mpr ⟨e, he, by simp [hpos]⟩
    have hmem2 : (⟨e.1, e.2⟩ : CD) ∈ sortDesc (partitionEntries (aggregate people).debtMap).1 :=
      (sortDesc_perm _).mem_iff.mpr hmem
    have hres := matchRec_to_sum _ _ hcr_pos hdb_pos hsum hcr_nd ⟨e.1, e.2⟩ hmem2
    rw [hts2]
    exact hres
  · intro hneg
    have hmem : (⟨e.1, |e.2|⟩ : CD) ∈ (partitionEntries (aggregate people).debtMap).2 := by
      rw [partitionEntries_eq]
      refine List.mem_filterMap.mpr ⟨e, he, ?_⟩
      rw [if_pos hneg]
    have hmem2 : (⟨e.1, |e.2|⟩ : CD) ∈ sortDesc (partitionEntries (aggregate people).debtMap).2 :=
      (sortDesc_perm _).mem_iff.mpr hmem
    have hres := matchRec_from_sum _ _ hcr_pos hdb_pos hsum hdb_nd ⟨e.1, |e.2|⟩ hmem2
    rw [hts2]
    exact hres

unseal Rat.add Rat.sub Rat.mul Rat.inv List.merge List.mergeSort matchRec in
/-- C2 witness: on the Alice(+20)/Bob(−20) ledger the single transfer to Alice
sums to her balance 20. -/
theorem claim_C2_witness :
    ((([⟨"Bob", "Alice", (20:ℚ)⟩] : List Transfer).filter
        (fun t => t.to_ = "Alice")).map Transfer.amount).sum = 20 := by
  have h := claim_C2 [⟨"Alice", [⟨"x", 10⟩], [30]⟩, ⟨"Bob", [⟨"y", 20⟩], []⟩]
    [⟨"Bob", "Alice", 20⟩] (by decide) (by decide)
  exact (h ("Alice", 20) (by decide)).1 (by decide)

/-- C5: every transfer emitted by the settlement computation has a strictly
positive amount, for any input ledger. -/
theorem claim_C5 (people : List Person) (ts : List Transfer)
    (hts : calculateDebts people = SettlementResult.debts ts) :
    ∀ t ∈ ts, 0 < t.amount := by
  have hts2 := calculateDebts_debts_inv people ts hts
  rw [hts2]
  apply matchRec_pos
  · intro x hx
    exact creditors_pos _ x ((sortDesc_perm _).mem_iff.mp hx)
  · intro x hx
    exact debtors_pos _ x ((sortDesc_perm _).mem_iff.mp hx)

unseal Rat.add Rat.sub Rat.mul Rat.inv List.merge List.mergeSort matchRec in
/-- C5 witness: the transfer emitted on the Alice/Bob ledger has positive
amount. -/
theorem claim_C5_witness :
    (0:ℚ) < Transfer.amount ⟨"Bob", "Alice", 20⟩ :=
  claim_C5 [⟨"Alice", [⟨"x", 10⟩], [30]⟩, ⟨"Bob", [⟨"y", 20⟩], []⟩]
    [⟨"Bob", "Alice", 20⟩] (by decide) ⟨"Bob", "Alice", 20⟩ (by decide)

/-- C7: when both the creditor and the debtor list are non-empty, the number
of emitted transfers is at most `creditors.length + debtors.length − 1`. -/
theorem claim_C7 (people : List Person) (ts : List Transfer)
    (hts : calculateDebts people = SettlementResult.debts ts)
    (hcr : (partitionEntries (aggregate people).debtMap).1 ≠ [])
    (hdb : (partitionEntries (aggregate people).debtMap).2 ≠ []) :
    ts.length ≤ (partitionEntries (aggregate people).debtMap).1.length +
      (partitionEntries (aggregate people).debtMap).2.length - 1 := by
  have hts2 := calculateDebts_debts_inv people ts hts
  have hs1 : (sortDesc (partitionEntries (aggregate people).debtMap).1).length
      = (partitionEntries (aggregate people).debtMap).1.length :=
    (sortDesc_perm _).length_eq
  have hs2 : (sortDesc (partitionEntries (aggregate people).debtMap).2).length
      = (partitionEntries (aggregate people).debtMap).2.length :=
    (sortDesc_perm _).length_eq
  have hne1 : sortDesc (partitionEntries (aggregate people).debtMap).1 ≠ [] := by
    intro h0
    apply hcr
    have := hs1
    rw [h0] at this
    exact List.length_eq_zero.mp this.symm
  have hne2 : sortDesc (partitionEntries (aggregate people).debtMap).2 ≠ [] := by
    intro h0
    apply hdb
    have := hs2
    rw [h0] at this
    exact List.length_eq_zero.mp this.symm
  have hlen := matchRec_length _ _ hne1 hne2
  rw [hs1, hs2] at hlen
  rw [hts2]
  omega

unseal Rat.add Rat.sub Rat.mul Rat.inv List.merge List.mergeSort matchRec in
/-- C7 witness: one creditor, one debtor, one transfer: 1 ≤ 1 + 1 − 1. -/
theorem claim_C7_witness :
    ([⟨"Bob", "Alice", (20:ℚ)⟩] : List Transfer).length ≤
      (partitionEntries (aggregate [⟨"Alice", [⟨"x", 10⟩], [30]⟩,
        ⟨"Bob", [⟨"y", 20⟩], []⟩]).debtMap).1.length +
      (partitionEntries (aggregate [⟨"Alice", [⟨"x", 10⟩], [30]⟩,
        ⟨"Bob", [⟨"y", 20⟩], []⟩]).debtMap).2.length - 1 :=
  claim_C7 [⟨"Alice", [⟨"x", 10⟩], [30]⟩, ⟨"Bob", [⟨"y", 20⟩], []⟩]
    [⟨"Bob", "Alice", 20⟩] (by decide) (by decide) (by decide)

/-- The literal `while (i < creditors.length && j < debtors.length)` loop of
App.jsx lines 68-77: explicit indices `i`, `j`, in-place updates of the
current amounts (`List.set`), `debts.push` as an output accumulator, and a
fuel parameter bounding the number of iterations; `none` means the fuel ran
out before the loop finished. The termination theorem below shows that
`creditors.length + debtors.length` iterations always suffice, i.e. the loop
terminates on every input. -/
def matchLoopFuel : Nat → List CD → List CD → Nat → Nat → List Transfer →
    Option (List Transfer)
  | 0, creditors, debtors, i, j, out =>
    if i < creditors.length ∧ j < debtors.length then none else some out
  | fuel + 1, creditors, debtors, i, j, out =>
    if h : i < creditors.length ∧ j < debtors.length then
      let c := creditors.get ⟨i, h.1⟩
      let d := debtors.get ⟨j, h.2⟩
      let debt := min c.amount d.amount
      matchLoopFuel fuel
        (creditors.set i ⟨c.name, c.amount - debt⟩)
        (debtors.set j ⟨d.name, d.amount - debt⟩)
        (if c.amount - debt = 0 then i + 1 else i)
        (if d.amount - debt = 0 then j + 1 else j)
        (out ++ [⟨d.name, c.name, debt⟩])
    else some out

lemma drop_set_self (l : List CD) (i : Nat) (x : CD) (h : i < l.length) :
    (l.set i x).drop i = x :: l.drop (i + 1) := by
  rw [List.drop_set, if_neg (lt_irrefl i), Nat.sub_self,
    ← List.getElem_cons_drop l i h]
  rfl

lemma drop_set_succ (l : List CD) (i : Nat) (x : CD) :
    (l.set i x).drop (i + 1) = l.drop (i + 1) := by
  rw [List.drop_set, if_pos (Nat.lt_succ_self i)]

lemma matchLoopFuel_eq_matchRec :
    ∀ (fuel : Nat) (cs ds : List CD) (i j : Nat) (out : List Transfer),
      (cs.length - i) + (ds.length - j) ≤ fuel →
      matchLoopFuel fuel cs ds i j out =
        some (out ++ matchRec (cs.drop i) (ds.drop j)) := by
  intro fuel
  induction fuel with
  | zero =>
    intro cs ds i j out h
    have h1 : cs.length ≤ i := by omega
    simp only [matchLoopFuel]
    rw [if_neg (by omega), List.drop_eq_nil_of_le h1, matchRec_nil_left,
      List.append_nil]
  | succ fuel ih =>
    intro cs ds i j out h
    simp only [matchLoopFuel]
    by_cases hij : i < cs.length ∧ j < ds.length
    · rw [dif_pos hij]
      have hdc : cs.drop i = cs.get ⟨i, hij.1⟩ :: cs.drop (i + 1) := by
        rw [List.get_eq_getElem]
        exact (List.getElem_cons_drop cs i hij.1).symm
      have hdd : ds.drop j = ds.get ⟨j, hij.2⟩ :: ds.drop (j + 1) := by
        rw [List.get_eq_getElem]
        exact (List.getElem_cons_drop ds j hij.2).symm
      rw [hdc, hdd, matchRec_cons_cons]
      set c := cs.get ⟨i, hij.1⟩ with hc
      set d := ds.get ⟨j, hij.2⟩ with hd
      by_cases hz1 : c.amount - min c.amount d.amount = 0
      · by_cases hz2 : d.amount - min c.amount d.amount = 0
        · rw [if_pos hz1, if_pos hz2, if_pos hz1, if_pos hz2]
          rw [ih _ _ _ _ _ (by simp only [List.length_set]; omega)]
          rw [drop_set_succ, List.drop_set, if_pos (Nat.lt_succ_self j)]
          simp
        · rw [if_pos hz1, if_neg hz2, if_pos hz1, if_neg hz2]
          rw [ih _ _ _ _ _ (by simp only [List.length_set]; omega)]
          rw [drop_set_succ, drop_set_self ds j _ hij.2]
          simp
      · by_cases hz2 : d.amount - min c.amount d.amount = 0
        · rw [if_neg hz1, if_pos hz2, if_neg hz1, if_pos hz2]
          rw [ih _ _ _ _ _ (by simp only [List.length_set]; omega)]
          rw [drop_set_self cs i _ hij.1, drop_set_succ]
          simp
        · exfalso
          rcases min_sub_or c.amount d.amount with hz | hz
          · exact hz1 hz
          · exact hz2 hz
    · rw [dif_neg hij]
      have hor : cs.length ≤ i ∨ ds.length ≤ j := by
        by_contra hcon
        push_neg at hcon
        exact hij ⟨hcon.1, hcon.2⟩
      rcases hor with h1 | h1
      · rw [List.drop_eq_nil_of_le h1, matchRec_nil_left, List.append_nil]
      · rw [List.drop_eq_nil_of_le h1, matchRec_nil_right, List.append_nil]

/-- C8: the two-pointer matching loop terminates on every input — running the
literal indexed loop with fuel `creditors.length + debtors.length` never
exhausts the fuel (each iteration subtracts `min` of the two current amounts,
leaving at least one of them exactly zero, so at least one pointer advances)
and it computes exactly the total function `matchRec`; hence the settlement
computation is a total function of the ledger snapshot. -/
theorem claim_C8 (cs ds : List CD) :
    matchLoopFuel (cs.length + ds.length) cs ds 0 0 [] = some (matchRec cs ds) := by
  have h := matchLoopFuel_eq_matchRec (cs.length + ds.length) cs ds 0 0 [] (by omega)
  simpa using h

/-- Reference definition following the spec's words (§4.3 step 1): partition
participants with `balance > 0` into creditors `{name, amount = balance}`. -/
def specCreditors (balances : List (String × ℚ)) : List CD :=
  balances.filterMap (fun e => if 0 < e.2 then some ⟨e.1, e.2⟩ else none)

/-- Reference definition following the spec's words (§4.3 step 1): partition
participants with `balance < 0` into debtors `{name, amount = |balance|}`. -/
def specDebtors (balances : List (String × ℚ)) : List CD :=
  balances.filterMap (fun e => if e.2 < 0 then some ⟨e.1, |e.2|⟩ else none)

/-- Reference definition following the spec's words (§4.3 steps 3-4): walk two
pointers `i` over creditors and `j` over debtors; at each step emit
`Transfer{from: debtors[j].name, to: creditors[i].name, amount = min}` and
subtract `amount` from both stored amounts, advancing a pointer exactly when
its amount reaches zero; terminate when either pointer exhausts its list. -/
def specWalk (creditors debtors : List CD) (i j : Nat) : List Transfer :=
  if h : i < creditors.length ∧ j < debtors.length then
    let c := creditors.get ⟨i, h.1⟩
    let d := debtors.get ⟨j, h.2⟩
    let amount := min c.amount d.amount
    ⟨d.name, c.name, amount⟩ ::
      specWalk (creditors.set i ⟨c.name, c.amount - amount⟩)
        (debtors.set j ⟨d.name, d.amount - amount⟩)
        (if c.amount - amount = 0 then i + 1 else i)
        (if d.amount - amount = 0 then j + 1 else j)
  else []
termination_by (creditors.length - i) + (debtors.length - j)
decreasing_by
  simp only [List.length_set]
  rcases min_sub_or (creditors.get ⟨i, h.1⟩).amount (debtors.get ⟨j, h.2⟩).amount
    with hz | hz
  · rw [dif_pos hz]
    split <;> omega
  · rw [dif_pos hz]
    split <;> omega

/-- The reference greedy algorithm of spec §4.3, assembled: partition the
name-keyed balances, sort both lists descending by amount (the stable
descending sort, as recommended by the spec's tie-break note), then walk the
two pointers from 0. -/
def greedySettleSpec (balances : List (String × ℚ)) : List Transfer :=
  specWalk (sortDesc (specCreditors balances)) (sortDesc (specDebtors balances)) 0 0

lemma specWalk_eq_matchRec :
    ∀ (n : Nat) (cs ds : List CD) (i j : Nat),
      (cs.length - i) + (ds.length - j) ≤ n →
      specWalk cs ds i j = matchRec (cs.drop i) (ds.drop j) := by
  intro n
  induction n with
  | zero =>
    intro cs ds i j h
    rw [specWalk, dif_neg (by omega)]
    rw [List.drop_eq_nil_of_le (by omega : cs.length ≤ i), matchRec_nil_left]
  | succ n ih =>
    intro cs ds i j h
    rw [specWalk]
    by_cases hij : i < cs.length ∧ j < ds.length
    · rw [dif_pos hij]
      simp only [dite_eq_ite]
      have hdc : cs.drop i = cs.get ⟨i, hij.1⟩ :: cs.drop (i + 1) := by
        rw [List.get_eq_getElem]
        exact (List.getElem_cons_drop cs i hij.1).symm
      have hdd : ds.drop j = ds.get ⟨j, hij.2⟩ :: ds.drop (j + 1) := by
        rw [List.get_eq_getElem]
        exact (List.getElem_cons_drop ds j hij.2).symm
      rw [hdc, hdd, matchRec_cons_cons]
      set c := cs.get ⟨i, hij.1⟩ with hc
      set d := ds.get ⟨j, hij.2⟩ with hd
      congr 1
      by_cases hz1 : c.amount - min c.amount d.amount = 0
      · by_cases hz2 : d.amount - min c.amount d.amount = 0
        · rw [if_pos hz1, if_pos hz2, if_pos hz1, if_pos hz2]
          rw [ih _ _ _ _ (by simp only [List.length_set]; omega)]
          rw [drop_set_succ, drop_set_succ]
        · rw [if_pos hz1, if_neg hz2, if_pos hz1, if_neg hz2]
          rw [ih _ _ _ _ (by simp only [List.length_set]; omega)]
          rw [drop_set_succ, drop_set_self ds j _ hij.2]
      · by_cases hz2 : d.amount - min c.amount d.amount = 0
        · rw [if_neg hz1, if_pos hz2, if_neg hz1, if_pos hz2]
          rw [ih _ _ _ _ (by simp only [List.length_set]; omega)]
          rw [drop_set_self cs i _ hij.1, drop_set_succ]
        · exfalso
          rcases min_sub_or c.amount d.amount with hz | hz
          · exact hz1 hz
          · exact hz2 hz
    · rw [dif_neg hij]
      have hor : cs.length ≤ i ∨ ds.length ≤ j := by
        by_contra hcon
        push_neg at hcon
        exact hij ⟨hcon.1, hcon.2⟩
      rcases hor with h1 | h1
      · rw [List.drop_eq_nil_of_le h1, matchRec_nil_left]
      · rw [List.drop_eq_nil_of_le h1, matchRec_nil_right]

/-- C4: for every validated ledger, the emitted transfer list equals the
result of the spec's reference greedy algorithm (partition by balance sign,
sort both lists descending by amount, two-pointer walk emitting
`min(creditors[i].amount, debtors[j].amount)` and advancing a pointer when its
amount reaches zero) applied to the name-keyed balances. -/
theorem claim_C4 (people : List Person) (ts : List Transfer)
    (hts : calculateDebts people = SettlementResult.debts ts) :
    ts = greedySettleSpec (aggregate people).debtMap := by
  have hts2 := calculateDebts_debts_inv people ts hts
  rw [hts2]
  rw [greedySettleSpec]
  rw [specWalk_eq_matchRec ((sortDesc (specCreditors (aggregate people).debtMap)).length
      + (sortDesc (specDebtors (aggregate people).debtMap)).length) _ _ 0 0 (by omega)]
  rw [List.drop_zero, List.drop_zero, partitionEntries_eq]
  rfl

unseal Rat.add Rat.sub Rat.mul Rat.inv List.merge List.mergeSort matchRec in
/-- C4 witness: on the Alice(+30)/Bob(+10)/Carol(−40) ledger the code's output
equals the reference algorithm's output. -/
theorem claim_C4_witness :
    ([⟨"Carol", "Alice", (30:ℚ)⟩, ⟨"Carol", "Bob", 10⟩] : List Transfer) =
      greedySettleSpec (aggregate [⟨"Alice", [], [30]⟩, ⟨"Bob", [], [10]⟩,
        ⟨"Carol", [⟨"z", 40⟩], []⟩]).debtMap :=
  claim_C4 [⟨"Alice", [], [30]⟩, ⟨"Bob", [], [10]⟩, ⟨"Carol", [⟨"z", 40⟩], []⟩]
    [⟨"Carol", "Alice", 30⟩, ⟨"Carol", "Bob", 10⟩] (by decide)

end SplitBill
